import Mathlib

/-!
# Miller-Rabin primality test: a shallow embedding

The two routines of the repository, `modular_pow` (modular_pow.h) and
`is_prime` (miller-rabin.h), are embedded as functions on natural numbers.

* A `uint32_t` is a natural number below `2 ^ 32`, a `uint64_t` one below
  `2 ^ 64`.  Products of 64-bit values are reduced modulo `2 ^ 64`, and a
  64-bit value stored in a 32-bit variable is reduced modulo `2 ^ 32`.
* A run returns `Option`: `none` stands for a run that does not produce a
  value (a division by zero, an unsigned subtraction that borrows, a random
  distribution built on an empty range, or a loop that does not stop within
  the iteration budget of its machine width).
* The random source of `is_prime` is a function `draws`, whose value at `i`
  is what the `i`-th call `uniform(generator)` returns.  The engine is a local
  variable that every call default-constructs; `engine_draws` gives the draws
  of a call from the library's engine and distribution.
-/

namespace MillerRabin

/-! ## Machine arithmetic -/

/-- Number of values of a `uint32_t`. -/
def U32 : Nat := 2 ^ 32

/-- Number of values of a `uint64_t`. -/
def U64 : Nat := 2 ^ 64

/-- Unsigned subtraction `a - b`; a borrow is reported as `none`. -/
def sub32 (a b : Nat) : Option Nat :=
  if b ≤ a then some (a - b) else none

/-- Unsigned remainder `a % m`; a zero divisor is reported as `none`. -/
def umod (a m : Nat) : Option Nat :=
  if m = 0 then none else some (a % m)

/-! ## modular_pow.h -/

/-- The `while (exponent > 0)` loop of `modular_pow`.  The state is
`base`, `exponent`, `result`; the flag `wrapped` records whether one of the
64-bit products `result * base` or `base * base` formed so far exceeded
`2 ^ 64 - 1`.  One unit of `fuel` is spent per iteration. -/
def modular_pow_loop : Nat → Nat → Nat → Nat → Nat → Bool → Option (Nat × Bool)
  | 0, _, _, _, _, _ => none
  | fuel + 1, base, exponent, modulus, result, wrapped =>
    if exponent > 0 then
      -- if (exponent % 2 == 1) result = (result * base) % modulus;
      let step : Option (Nat × Bool) :=
        if exponent % 2 = 1 then
          match umod (result * base % U64) modulus with
          | none => none
          | some r => some (r % U32, wrapped || decide (U64 ≤ result * base))
        else some (result, wrapped)
      match step with
      | none => none
      | some (result1, wrapped1) =>
        -- exponent /= 2; if (exponent == 0) break;
        if exponent / 2 = 0 then some (result1, wrapped1)
        else
          -- base = (base * base) % modulus;
          match umod (base * base % U64) modulus with
          | none => none
          | some base1 =>
            modular_pow_loop fuel base1 (exponent / 2) modulus result1
              (wrapped1 || decide (U64 ≤ base * base))
    else some (result, wrapped)

/-- Run of `modular_pow` with the overflow flag: `result` starts at `1`, and
a 32-bit exponent is exhausted after at most 32 halvings. -/
def modular_pow_run (base exponent modulus : Nat) : Option (Nat × Bool) :=
  modular_pow_loop 32 base exponent modulus 1 false

/-- The value returned by `modular_pow(base, exponent, modulus)`. -/
def modular_pow (base exponent modulus : Nat) : Option Nat :=
  (modular_pow_run base exponent modulus).map Prod.fst

/-- Naive repeated multiplication: `base` multiplied `e` times into `1`. -/
def naive_pow (base : Nat) : Nat → Nat
  | 0 => 1
  | e + 1 => naive_pow base e * base

/-! ## miller-rabin.h -/

/-- The fixed witness sets of the deterministic branch, with the value of
the `deterministic` flag after the branch. -/
def select_fixed (n : Nat) : List Nat × Bool :=
  if n < 2047 then ([2], true)
  else if n < 1373653 then ([2, 3], true)
  else if n < 9090191 then ([31, 73], true)
  else if n < 25326001 then ([2, 3, 5], true)
  else ([], false)

/-- The random branch: a distribution on `[2, n - 1]` is built (the range
must not be empty) and `k` draws are appended to `A`. -/
def draw_witnesses (n k : Nat) (draws : Nat → Nat) (A : List Nat) :
    Option (List Nat) :=
  match sub32 n 1 with
  | none => none
  | some hi => if hi < 2 then none else some (A ++ (List.range k).map draws)

/-- The loop `while (d % 2 == 0) { d /= 2; s++; }`, one unit of `fuel` per
test of the loop condition. -/
def decompose_loop : Nat → Nat → Nat → Option (Nat × Nat)
  | 0, _, _ => none
  | fuel + 1, d, s =>
    if d % 2 = 0 then decompose_loop fuel (d / 2) ((s + 1) % U32)
    else some (d, s)

/-- One pass of the body `x *= x; if (x > n) x %= n;` on the 64-bit `x`. -/
def square_step (x n : Nat) : Option Nat :=
  if x * x % U64 > n then umod (x * x % U64) n else some (x * x % U64)

/-- The loop `for (j = 1; j < s; j++)`, with `rem` the number of passes
left (`s - j`).  `some true` is `goto next_witness`, `some false` is
`return false`. -/
def square_loop : Nat → Nat → Nat → Option Bool
  | 0, _, _ => some false
  | rem + 1, x, n =>
    match square_step x n with
    | none => none
    | some x1 =>
      if x1 = 1 then some false
      else
        match sub32 n 1 with
        | none => none
        | some m => if x1 = m then some true else square_loop rem x1 n

/-- The body of `for (uint32_t a : A)` for one witness `a`: `some true`
when control reaches `next_witness` (or `continue`), `some false` when the
function returns `false`. -/
def witness_passes (a d s n : Nat) : Option Bool :=
  match modular_pow a d n with
  | none => none
  | some x =>
    match sub32 n 1 with
    | none => none
    | some m => if x = 1 ∨ x = m then some true else square_loop (s - 1) x n

/-- The loop `for (uint32_t a : A)` followed by `return true`. -/
def witness_loop (d s n : Nat) : List Nat → Option Bool
  | [] => some true
  | a :: rest =>
    match witness_passes a d s n with
    | none => none
    | some true => witness_loop d s n rest
    | some false => some false

/-- The witness set `A` and the final `deterministic` flag as `is_prime`
builds them for an odd `n` past the early returns. -/
def build_witnesses (n : Nat) (deterministic : Bool) (k : Nat)
    (draws : Nat → Nat) : Option (List Nat) :=
  match sub32 n 2 with
  | none => none
  | some m =>
    -- if (k > n - 2) deterministic = true;
    let det1 : Bool := if k > m then true else deterministic
    let sel : List Nat × Bool := if det1 then select_fixed n else ([], det1)
    if sel.2 then some sel.1 else draw_witnesses n k draws sel.1

/-- The function `is_prime(n, deterministic, k)`. -/
def is_prime (n : Nat) (deterministic : Bool) (k : Nat) (draws : Nat → Nat) :
    Option Bool :=
  if n = 0 ∨ n = 1 then some false
  else if n = 2 ∨ n = 3 then some true
  else if n % 2 = 0 then some false
  else
    match build_witnesses n deterministic k draws with
    | none => none
    | some A =>
      match sub32 n 1 with
      | none => none
      | some d0 =>
        match decompose_loop 32 d0 0 with
        | none => none
        | some (d, s) => witness_loop d s n A

/-- The draws used in the examples: the `i`-th draw is `i + 2`. -/
def sample_draws (i : Nat) : Nat := i + 2

/-- The random source that returns `a` at every draw. -/
def const_draws (a : Nat) (_ : Nat) : Nat := a

/-! ## The random engine of a call -/

/-- The values of `x` on which `x *= x` is executed by the loop
`for (j = 1; j < s; j++)`, in order of execution; the control flow is that
of `square_loop`. -/
def square_loop_inputs : Nat → Nat → Nat → List Nat
  | 0, _, _ => []
  | rem + 1, x, n =>
    x :: (match square_step x n with
      | none => []
      | some x1 =>
        if x1 = 1 then []
        else
          match sub32 n 1 with
          | none => []
          | some m => if x1 = m then [] else square_loop_inputs rem x1 n)

/-- The values of `x` squared while witness `a` is tested; the control flow
is that of `witness_passes`. -/
def witness_squarings (a d s n : Nat) : List Nat :=
  match modular_pow a d n with
  | none => []
  | some x =>
    match sub32 n 1 with
    | none => []
    | some m => if x = 1 ∨ x = m then [] else square_loop_inputs (s - 1) x n

/-! ## Reference notions of the specification -/

/-- Strong probable primality of `n` to base `a`, for `n - 1 = d * 2 ^ s`:
`a ^ d ≡ 1` or `a ^ (d * 2 ^ r) ≡ n - 1` modulo `n` for some `r < s`. -/
def strong_probable_prime (n a d s : Nat) : Prop :=
  a ^ d % n = 1 ∨ ∃ r, r < s ∧ a ^ (d * 2 ^ r) % n = n - 1

instance (n a d s : Nat) : Decidable (strong_probable_prime n a d s) := by
  unfold strong_probable_prime
  infer_instance

/-- Reference variant of the squaring loop, after the words of the
specification: every pass computes `x = x² mod n` exactly. -/
def square_loop_reduced : Nat → Nat → Nat → Bool
  | 0, _, _ => false
  | rem + 1, x, n =>
    if x * x % n = 1 then false
    else if x * x % n = n - 1 then true
    else square_loop_reduced rem (x * x % n) n

/-- Reference variant of the test of one witness, with exact arithmetic:
`x = a ^ d mod n`, then the always-reducing squaring loop. -/
def witness_passes_reduced (a d s n : Nat) : Bool :=
  if a ^ d % n = 1 ∨ a ^ d % n = n - 1 then true
  else square_loop_reduced (s - 1) (a ^ d % n) n

/-- Trial-division primality with the candidate divisors below `b`:
`n ≥ 2` and no `m` with `2 ≤ m < min b n` divides `n`.  It decides
primality of every `n < b * b`. -/
def trial_division (b n : Nat) : Bool :=
  decide (2 ≤ n) &&
    (List.range b).all (fun m => decide (m < 2) || decide (n ≤ m) || decide (n % m ≠ 0))

/-! ## Basic facts about the machine arithmetic -/

lemma sub32_of_le {a b : Nat} (h : b ≤ a) : sub32 a b = some (a - b) := by
  simp [sub32, h]

lemma umod_of_pos {a m : Nat} (h : 0 < m) : umod a m = some (a % m) := by
  simp [umod, Nat.pos_iff_ne_zero.mp h]

lemma select_fixed_flag {n : Nat} (h : n < 25326001) : (select_fixed n).2 = true := by
  unfold select_fixed
  split_ifs <;> rfl

/-- Below the last threshold the deterministic branch keeps the fixed set
and draws nothing. -/
lemma build_witnesses_fixed (n k : Nat) (draws : Nat → Nat) (h2 : 2 ≤ n)
    (h : n < 25326001) :
    build_witnesses n true k draws = some (select_fixed n).1 := by
  simp [build_witnesses, sub32_of_le h2, select_fixed_flag h]

/-! ## The loop of `modular_pow` -/

lemma naive_pow_eq (base e : Nat) : naive_pow base e = base ^ e := by
  induction e with
  | zero => rfl
  | succ e ih => rw [naive_pow, ih, pow_succ]

lemma mul_lt_U64 {a b : Nat} (ha : a < 2 ^ 32) (hb : b < 2 ^ 32) : a * b < U64 := by
  have h : a * b < 2 ^ 32 * 2 ^ 32 := Nat.mul_lt_mul'' ha hb
  have e : U64 = 2 ^ 32 * 2 ^ 32 := by norm_num [U64]
  rw [e]
  exact h

lemma modular_pow_loop_zero (fuel base modulus result : Nat) (wrapped : Bool) :
    modular_pow_loop (fuel + 1) base 0 modulus result wrapped = some (result, wrapped) := by
  simp [modular_pow_loop]

/-- One iteration on an odd exponent, operands below `2 ^ 32`. -/
lemma modular_pow_loop_odd (fuel base exponent modulus result : Nat)
    (hm0 : 0 < modulus) (hm : modulus < 2 ^ 32) (hb : base < 2 ^ 32)
    (hr : result < 2 ^ 32) (hodd : exponent % 2 = 1) :
    modular_pow_loop (fuel + 1) base exponent modulus result false =
      if exponent / 2 = 0 then some (result * base % modulus, false)
      else modular_pow_loop fuel (base * base % modulus) (exponent / 2) modulus
        (result * base % modulus) false := by
  have hpos : 0 < exponent := by omega
  have h1 : result * base < U64 := mul_lt_U64 hr hb
  have h2 : base * base < U64 := mul_lt_U64 hb hb
  have h3 : result * base % modulus < U32 := by
    have := Nat.mod_lt (result * base) hm0
    have e : U32 = 2 ^ 32 := rfl
    omega
  simp [modular_pow_loop, hpos, hodd, umod_of_pos hm0, Nat.mod_eq_of_lt h1,
    Nat.mod_eq_of_lt h2, Nat.mod_eq_of_lt h3, not_le.mpr h1, not_le.mpr h2]

/-- One iteration on an even positive exponent, operands below `2 ^ 32`. -/
lemma modular_pow_loop_even (fuel base exponent modulus result : Nat)
    (hm0 : 0 < modulus) (hb : base < 2 ^ 32)
    (hpos : 0 < exponent) (hev : exponent % 2 = 0) :
    modular_pow_loop (fuel + 1) base exponent modulus result false =
      modular_pow_loop fuel (base * base % modulus) (exponent / 2) modulus
        result false := by
  have h2 : base * base < U64 := mul_lt_U64 hb hb
  have hne : ¬ exponent / 2 = 0 := by omega
  simp [modular_pow_loop, hpos, hev, hne, umod_of_pos hm0,
    Nat.mod_eq_of_lt h2, not_le.mpr h2]

lemma pow_split_odd (base e : Nat) (hodd : e % 2 = 1) :
    base ^ e = base * (base * base) ^ (e / 2) := by
  have h : e = 2 * (e / 2) + 1 := by omega
  conv_lhs => rw [h]
  rw [pow_succ, pow_mul, pow_two, mul_comm]

lemma pow_split_even (base e : Nat) (hev : e % 2 = 0) :
    base ^ e = (base * base) ^ (e / 2) := by
  have h : e = 2 * (e / 2) := by omega
  conv_lhs => rw [h]
  rw [pow_mul, pow_two]

/-- Loop invariant of `modular_pow`: from a state with operands below
`2 ^ 32` and a positive exponent below `2 ^ fuel`, the loop returns
`result * base ^ exponent mod modulus` and no product wraps. -/
lemma modular_pow_loop_spec (modulus : Nat) (hm0 : 0 < modulus)
    (hm : modulus < 2 ^ 32) :
    ∀ (fuel base exponent result : Nat), base < 2 ^ 32 → result < 2 ^ 32 →
      0 < exponent → exponent < 2 ^ fuel →
      modular_pow_loop fuel base exponent modulus result false =
        some (result * base ^ exponent % modulus, false) := by
  intro fuel
  induction fuel with
  | zero =>
    intro base exponent result _ _ hpos hlt
    simp at hlt
    omega
  | succ fuel ih =>
    intro base exponent result hb hr hpos hlt
    have hb1 : base * base % modulus < 2 ^ 32 :=
      lt_trans (Nat.mod_lt _ hm0) hm
    have hr1 : result * base % modulus < 2 ^ 32 :=
      lt_trans (Nat.mod_lt _ hm0) hm
    have hhalf : exponent / 2 < 2 ^ fuel := by
      rw [pow_succ] at hlt
      omega
    rcases Nat.mod_two_eq_zero_or_one exponent with hev | hodd
    · rw [modular_pow_loop_even fuel base exponent modulus result hm0 hb hpos hev,
        ih _ _ _ hb1 hr (by omega) hhalf, pow_split_even base exponent hev]
      congr 2
      exact Nat.ModEq.mul_left result ((Nat.mod_modEq _ _).pow _)
    · rw [modular_pow_loop_odd fuel base exponent modulus result hm0 hm hb hr hodd]
      by_cases h0 : exponent / 2 = 0
      · have h1 : exponent = 1 := by omega
        simp [h1]
      · rw [if_neg h0, ih _ _ _ hb1 hr1 (by omega) hhalf,
          pow_split_odd base exponent hodd, ← mul_assoc]
        congr 2
        exact Nat.ModEq.mul (Nat.mod_modEq _ _) ((Nat.mod_modEq _ _).pow _)

/-- For a base below `2 ^ 32`, a 32-bit exponent and a modulus above `1`,
the run of `modular_pow` returns `base ^ exponent mod modulus` and raises no
overflow flag. -/
lemma modular_pow_run_spec (base exponent modulus : Nat) (hb : base < 2 ^ 32)
    (he : exponent < 2 ^ 32) (hm1 : 1 < modulus) (hm : modulus < 2 ^ 32) :
    modular_pow_run base exponent modulus =
      some (base ^ exponent % modulus, false) := by
  unfold modular_pow_run
  rcases Nat.eq_zero_or_pos exponent with h0 | hpos
  · subst h0
    rw [modular_pow_loop_zero, pow_zero, Nat.mod_eq_of_lt hm1]
  · rw [modular_pow_loop_spec modulus (by omega) hm 32 base exponent 1 hb
      (by norm_num) hpos he, one_mul]

/-- Value form of `modular_pow_run_spec`; with a positive exponent a
modulus of `1` is allowed as well. -/
lemma modular_pow_spec (base exponent modulus : Nat) (hb : base < 2 ^ 32)
    (he : exponent < 2 ^ 32) (hm0 : 0 < modulus) (hm : modulus < 2 ^ 32)
    (hnz : 0 < exponent ∨ 1 < modulus) :
    modular_pow base exponent modulus = some (base ^ exponent % modulus) := by
  unfold modular_pow modular_pow_run
  rcases Nat.eq_zero_or_pos exponent with h0 | hpos
  · subst h0
    have hm1 : 1 < modulus := by omega
    rw [modular_pow_loop_zero, pow_zero, Nat.mod_eq_of_lt hm1]
    rfl
  · rw [modular_pow_loop_spec modulus hm0 hm 32 base exponent 1 hb
      (by norm_num) hpos he, one_mul]
    rfl

/-- With a non-zero modulus and an exponent below `2 ^ (fuel + 1)` the loop
of `modular_pow` returns a value, whatever the base (wrapping included). -/
lemma modular_pow_loop_total (modulus : Nat) (hm0 : 0 < modulus) :
    ∀ (fuel base exponent result : Nat) (wrapped : Bool),
      exponent < 2 ^ (fuel + 1) →
      ∃ r, modular_pow_loop (fuel + 1) base exponent modulus result wrapped = some r := by
  intro fuel
  induction fuel with
  | zero =>
    intro base exponent result wrapped h
    have h2 : exponent / 2 = 0 := by omega
    simp only [modular_pow_loop, umod_of_pos hm0, h2]
    split_ifs <;> simp
  | succ fuel ih =>
    intro base exponent result wrapped h
    have hh : exponent / 2 < 2 ^ (fuel + 1) := by
      rw [pow_succ] at h
      omega
    rw [modular_pow_loop]
    simp only [umod_of_pos hm0]
    split_ifs
    · simp
    · exact ih _ _ _ _ hh
    · simp
    · exact ih _ _ _ _ hh
    · simp

lemma modular_pow_total (base exponent modulus : Nat) (hm0 : 0 < modulus)
    (he : exponent < 2 ^ 32) : ∃ r, modular_pow base exponent modulus = some r := by
  obtain ⟨r, hr⟩ := modular_pow_loop_total modulus hm0 31 base exponent 1 false he
  exact ⟨r.1, by simp [modular_pow, modular_pow_run, hr]⟩

/-! ## The decomposition `n - 1 = d * 2 ^ s` -/

/-- From a non-zero `d` below `2 ^ fuel` the halving loop stops, on an odd
value, having counted the halvings without wrapping `s`. -/
lemma decompose_loop_spec :
    ∀ (fuel d s : Nat), 0 < d → d < 2 ^ fuel → s + fuel < 2 ^ 32 →
      ∃ d1 t, decompose_loop fuel d s = some (d1, s + t) ∧ d1 % 2 = 1 ∧
        d1 * 2 ^ t = d ∧ t < fuel := by
  intro fuel
  induction fuel with
  | zero =>
    intro d s hd hlt _
    simp at hlt
    omega
  | succ fuel ih =>
    intro d s hd hlt hs
    rcases Nat.mod_two_eq_zero_or_one d with hev | hodd
    · have hw : (s + 1) % U32 = s + 1 := by
        apply Nat.mod_eq_of_lt
        have e : U32 = 2 ^ 32 := rfl
        omega
      have hh : d / 2 < 2 ^ fuel := by
        rw [pow_succ] at hlt
        omega
      obtain ⟨d1, t, h1, h2, h3, h4⟩ := ih (d / 2) (s + 1) (by omega) hh (by omega)
      refine ⟨d1, t + 1, ?_, h2, ?_, by omega⟩
      · rw [decompose_loop, if_pos hev, hw, h1]
        congr 2
        omega
      · rw [pow_succ, ← mul_assoc, h3]
        omega
    · refine ⟨d, 0, ?_, hodd, by simp, by omega⟩
      rw [decompose_loop, if_neg (by omega)]
      rfl

/-- The decomposition computed by `is_prime` for an odd 32-bit `n ≥ 3`. -/
lemma decompose_spec (n : Nat) (hn : n < 2 ^ 32) (h3 : 3 ≤ n) (hodd : n % 2 = 1) :
    ∃ d s, decompose_loop 32 (n - 1) 0 = some (d, s) ∧ d % 2 = 1 ∧
      d * 2 ^ s = n - 1 ∧ 1 ≤ s ∧ s < 32 := by
  obtain ⟨d, t, h1, h2, h3, h4⟩ :=
    decompose_loop_spec 32 (n - 1) 0 (by omega) (by omega) (by norm_num)
  rw [zero_add] at h1
  refine ⟨d, t, h1, h2, h3, ?_, h4⟩
  rcases Nat.eq_zero_or_pos t with h0 | hpos
  · subst h0
    simp at h3
    omega
  · exact hpos

/-! ## The witness loop always returns -/

lemma square_step_total (x n : Nat) (hn : 0 < n) : ∃ y, square_step x n = some y := by
  unfold square_step
  rw [umod_of_pos hn]
  split_ifs <;> simp

lemma square_loop_total (n : Nat) (hn : 0 < n) :
    ∀ (rem x : Nat), ∃ b, square_loop rem x n = some b := by
  intro rem
  induction rem with
  | zero => intro x; exact ⟨false, rfl⟩
  | succ rem ih =>
    intro x
    obtain ⟨y, hy⟩ := square_step_total x n hn
    rw [square_loop, hy]
    simp only [sub32_of_le (Nat.succ_le_of_lt hn)]
    split_ifs
    · simp
    · simp
    · exact ih y

lemma witness_passes_total (a d s n : Nat) (hn : 0 < n) (hd : d < 2 ^ 32) :
    ∃ b, witness_passes a d s n = some b := by
  obtain ⟨x, hx⟩ := modular_pow_total a d n hn hd
  unfold witness_passes
  rw [hx]
  simp only [sub32_of_le (Nat.succ_le_of_lt hn)]
  split_ifs
  · simp
  · exact square_loop_total n hn _ _

lemma witness_loop_total (d s n : Nat) (hn : 0 < n) (hd : d < 2 ^ 32) :
    ∀ A : List Nat, ∃ b, witness_loop d s n A = some b := by
  intro A
  induction A with
  | nil => exact ⟨true, rfl⟩
  | cons a rest ih =>
    obtain ⟨b, hb⟩ := witness_passes_total a d s n hn hd
    rw [witness_loop, hb]
    cases b
    · exact ⟨false, rfl⟩
    · exact ih

lemma draw_witnesses_eq (n k : Nat) (draws : Nat → Nat) (A : List Nat) (h3 : 3 ≤ n) :
    draw_witnesses n k draws A = some (A ++ (List.range k).map draws) := by
  have h : ¬ n - 1 < 2 := by omega
  simp [draw_witnesses, sub32_of_le (show 1 ≤ n by omega), h]

/-- For `n ≥ 3` a witness set is built: the fixed set alone, or the fixed set
(empty on that path) followed by the `k` draws. -/
lemma build_witnesses_cases (n : Nat) (deterministic : Bool) (k : Nat)
    (draws : Nat → Nat) (h3 : 3 ≤ n) :
    build_witnesses n deterministic k draws = some (select_fixed n).1 ∨
    build_witnesses n deterministic k draws =
      some ((select_fixed n).1 ++ (List.range k).map draws) ∨
    build_witnesses n deterministic k draws = some ((List.range k).map draws) := by
  unfold build_witnesses
  rw [sub32_of_le (show 2 ≤ n by omega)]
  simp only [draw_witnesses_eq n k draws _ h3]
  split_ifs <;> simp_all

/-! ## Primes pass every witness -/

/-- For `x ≤ n < 2 ^ 32` the squaring does not wrap and the reduction is
applied exactly when the square exceeds `n`. -/
lemma square_step_of_le (x n : Nat) (hn0 : 0 < n) (hn : n < 2 ^ 32) (hx : x ≤ n) :
    square_step x n = some (if x * x > n then x * x % n else x * x) := by
  have h : x * x < U64 := mul_lt_U64 (by omega) (by omega)
  unfold square_step
  rw [Nat.mod_eq_of_lt h, umod_of_pos hn0]
  split_ifs <;> rfl

lemma sq_mod_prime_eq_one {n x : Nat} (hp : n.Prime) (hx : x < n)
    (h : x * x % n = 1) : x = 1 ∨ x = n - 1 := by
  have h2 := hp.two_le
  have hx0 : 0 < x := by
    rcases Nat.eq_zero_or_pos x with h0 | h0
    · subst h0
      simp at h
    · exact h0
  have hfac : (x - 1) * (x + 1) = x * x - 1 := by
    obtain ⟨y, rfl⟩ : ∃ y, x = y + 1 := ⟨x - 1, by omega⟩
    simp only [Nat.add_sub_cancel]
    have : (y + 1) * (y + 1) = y * (y + 1 + 1) + 1 := by ring
    omega
  have hmod : 1 ≡ x * x [MOD n] := by
    unfold Nat.ModEq
    rw [h, Nat.mod_eq_of_lt h2]
  have hd : n ∣ (x - 1) * (x + 1) := by
    rw [hfac]
    exact (Nat.modEq_iff_dvd' (Nat.mul_pos hx0 hx0)).mp hmod
  rcases (Nat.Prime.dvd_mul hp).mp hd with h1 | h1
  · left
    have := Nat.eq_zero_of_dvd_of_lt h1 (by omega)
    omega
  · right
    have := Nat.le_of_dvd (by omega) h1
    omega

/-- For a prime `n` and a witness not divisible by `n`, the squaring loop
started on a value that is neither `1` nor `n - 1` reaches `n - 1`. -/
lemma square_loop_prime (n a d s : Nat) (hp : n.Prime) (hn : n < 2 ^ 32)
    (ha : ¬ n ∣ a) (hds : d * 2 ^ s = n - 1) :
    ∀ (rem j x : Nat), j + rem + 1 = s → x = a ^ (d * 2 ^ j) % n → x ≠ 1 →
      x ≠ n - 1 → square_loop rem x n = some true := by
  have h2 := hp.two_le
  have fermat : a ^ (n - 1) % n = 1 := by
    have hc : Nat.Coprime a n := ((Nat.Prime.coprime_iff_not_dvd hp).2 ha).symm
    have ht := Nat.ModEq.pow_totient hc
    rw [Nat.totient_prime hp] at ht
    unfold Nat.ModEq at ht
    rw [ht]
    exact Nat.mod_eq_of_lt h2
  have sq : ∀ j, (a ^ (d * 2 ^ j) % n) * (a ^ (d * 2 ^ j) % n) % n =
      a ^ (d * 2 ^ (j + 1)) % n := by
    intro j
    rw [← Nat.mul_mod, ← pow_two, ← pow_mul, pow_succ, mul_assoc]
  have step : ∀ x, x < n → x ≠ 1 → x ≠ n - 1 → x * x % n ≠ 1 := by
    intro x hxlt hx1 hxn h
    rcases sq_mod_prime_eq_one hp hxlt h with h | h
    exacts [hx1 h, hxn h]
  intro rem
  induction rem with
  | zero =>
    intro j x hj hx hx1 hxn
    exfalso
    have hxlt : x < n := by
      rw [hx]
      exact Nat.mod_lt _ (by omega)
    apply step x hxlt hx1 hxn
    rw [hx, sq j, show j + 1 = s by omega, hds, fermat]
  | succ rem ih =>
    intro j x hj hx hx1 hxn
    have hxlt : x < n := by
      rw [hx]
      exact Nat.mod_lt _ (by omega)
    have hne : x * x ≠ n := by
      intro h
      have hdvd : x ∣ n := ⟨x, h.symm⟩
      rcases (Nat.dvd_prime hp).mp hdvd with h1 | h1
      · exact hx1 h1
      · omega
    have hstep : square_step x n = some (x * x % n) := by
      rw [square_step_of_le x n (by omega) hn (le_of_lt hxlt)]
      split_ifs with hgt
      · rfl
      · congr 1
        exact (Nat.mod_eq_of_lt (by omega)).symm
    have hy1 : x * x % n ≠ 1 := step x hxlt hx1 hxn
    rw [square_loop, hstep]
    simp only [sub32_of_le (show 1 ≤ n by omega), if_neg hy1]
    split_ifs with hm
    · rfl
    · exact ih (j + 1) (x * x % n) (by omega) (by rw [hx, sq j]) hy1 hm

lemma witness_passes_prime (n a d s : Nat) (hp : n.Prime) (hn : n < 2 ^ 32)
    (ha : ¬ n ∣ a) (ha32 : a < 2 ^ 32) (hd : d % 2 = 1)
    (hds : d * 2 ^ s = n - 1) (hs : 1 ≤ s) :
    witness_passes a d s n = some true := by
  have h2 := hp.two_le
  have hdlt : d < 2 ^ 32 := by
    have : d ≤ d * 2 ^ s := Nat.le_mul_of_pos_right d (by positivity)
    omega
  unfold witness_passes
  rw [modular_pow_spec a d n ha32 hdlt (by omega) hn (Or.inl (by omega))]
  simp only [sub32_of_le (show 1 ≤ n by omega)]
  split_ifs with h
  · rfl
  · push_neg at h
    exact square_loop_prime n a d s hp hn ha hds (s - 1) 0 _ (by omega)
      (by simp) h.1 h.2

lemma witness_loop_prime (n d s : Nat) (hp : n.Prime) (hn : n < 2 ^ 32)
    (hd : d % 2 = 1) (hds : d * 2 ^ s = n - 1) (hs : 1 ≤ s) :
    ∀ A : List Nat, (∀ a ∈ A, 2 ≤ a ∧ a ≤ n - 1) →
      witness_loop d s n A = some true := by
  intro A
  induction A with
  | nil => intro _; rfl
  | cons a rest ih =>
    intro hA
    have h2 := hp.two_le
    have har := hA a (List.mem_cons_self a rest)
    have ha : ¬ n ∣ a := Nat.not_dvd_of_pos_of_lt (by omega) (by omega)
    rw [witness_loop, witness_passes_prime n a d s hp hn ha (by omega) hd hds hs]
    exact ih (fun b hb => hA b (List.mem_cons_of_mem a hb))

/-- Every fixed witness lies in `[2, n - 2]` for `n ≥ 5`. -/
lemma select_fixed_range (n a : Nat) (h5 : 5 ≤ n) (ha : a ∈ (select_fixed n).1) :
    2 ≤ a ∧ a ≤ n - 2 := by
  unfold select_fixed at ha
  split_ifs at ha <;> simp at ha <;> omega

/-- Every witness of the set built for `n ≥ 5` lies in `[2, n - 1]`, when
the draws do. -/
lemma build_witnesses_range (n : Nat) (deterministic : Bool) (k : Nat)
    (draws : Nat → Nat) (h5 : 5 ≤ n)
    (hdraws : ∀ i, i < k → 2 ≤ draws i ∧ draws i ≤ n - 1) :
    ∃ A, build_witnesses n deterministic k draws = some A ∧
      ∀ a ∈ A, 2 ≤ a ∧ a ≤ n - 1 := by
  have hfix : ∀ a ∈ (select_fixed n).1, 2 ≤ a ∧ a ≤ n - 1 := by
    intro a ha
    have := select_fixed_range n a h5 ha
    omega
  have hdr : ∀ a ∈ (List.range k).map draws, 2 ≤ a ∧ a ≤ n - 1 := by
    intro a ha
    obtain ⟨i, hi, rfl⟩ := List.mem_map.mp ha
    exact hdraws i (List.mem_range.mp hi)
  rcases build_witnesses_cases n deterministic k draws (by omega) with h | h | h
  · exact ⟨_, h, hfix⟩
  · refine ⟨_, h, ?_⟩
    intro a ha
    rcases List.mem_append.mp ha with h1 | h1
    · exact hfix a h1
    · exact hdr a h1
  · exact ⟨_, h, hdr⟩

/-- On a prime, `is_prime` answers `true`. -/
lemma is_prime_of_prime (n : Nat) (deterministic : Bool) (k : Nat)
    (draws : Nat → Nat) (hn : n < 2 ^ 32)
    (hdraws : 5 ≤ n → ∀ i, i < k → 2 ≤ draws i ∧ draws i ≤ n - 1)
    (hp : n.Prime) : is_prime n deterministic k draws = some true := by
  have h2 := hp.two_le
  by_cases h23 : n = 2 ∨ n = 3
  · rcases h23 with rfl | rfl <;> rfl
  · have hodd : n % 2 = 1 := by
      rcases hp.eq_two_or_odd with h | h
      · omega
      · exact h
    have h5 : 5 ≤ n := by
      have h4 : n ≠ 4 := by
        intro h
        omega
      omega
    obtain ⟨A, hA, hrange⟩ :=
      build_witnesses_range n deterministic k draws h5 (hdraws h5)
    obtain ⟨d, s, hdec, hd, hds, hs, _⟩ := decompose_spec n hn (by omega) hodd
    have h01 : ¬ (n = 0 ∨ n = 1) := by omega
    have hev : ¬ n % 2 = 0 := by omega
    unfold is_prime
    rw [if_neg h01, if_neg h23, if_neg hev, hA]
    simp only [sub32_of_le (show 1 ≤ n by omega), hdec]
    exact witness_loop_prime n d s hp hn hd hds hs A hrange

/-! ## Evaluation at concrete inputs -/

/-- C5: whatever the flag, `k` and the draws, `is_prime` answers `false` at
`0` and `1` and `true` at `2` and `3`. -/
theorem is_prime_zero_one_two_three (deterministic : Bool) (k : Nat)
    (draws : Nat → Nat) :
    is_prime 0 deterministic k draws = some false ∧
    is_prime 1 deterministic k draws = some false ∧
    is_prime 2 deterministic k draws = some true ∧
    is_prime 3 deterministic k draws = some true := by
  refine ⟨rfl, rfl, rfl, rfl⟩

/-- C6: every even `n > 2` (in particular every even 32-bit one) is answered
`false`, whatever the flag, `k` and the draws. -/
theorem is_prime_even_false (n : Nat) (deterministic : Bool) (k : Nat)
    (draws : Nat → Nat) (h2 : 2 < n) (hev : n % 2 = 0) :
    is_prime n deterministic k draws = some false := by
  have h0 : ¬ (n = 0 ∨ n = 1) := by omega
  have h1 : ¬ (n = 2 ∨ n = 3) := by omega
  simp [is_prime, h0, h1, hev]

theorem is_prime_even_false_witness :
    is_prime 100 false 7 sample_draws = some false :=
  is_prime_even_false 100 false 7 sample_draws (by norm_num) (by norm_num)

/-- C7: with the default arguments (`deterministic = true`, `k = 4`), 97,
7919 and 8191 are answered prime, 100 and the Carmichael number 561 are
answered composite. -/
theorem is_prime_spot_checks (draws : Nat → Nat) :
    is_prime 97 true 4 draws = some true ∧
    is_prime 100 true 4 draws = some false ∧
    is_prime 7919 true 4 draws = some true ∧
    is_prime 8191 true 4 draws = some true ∧
    is_prime 561 true 4 draws = some false := by
  refine ⟨rfl, rfl, rfl, rfl, rfl⟩

/-- C1 (fails on the code): 9080191 = 2131 * 4261 lies below the threshold
9090191 of the witness set {31, 73} and passes both witnesses, so the
deterministic test answers `true` on a composite number. -/
theorem is_prime_9080191_composite (k : Nat) (draws : Nat → Nat) :
    is_prime 9080191 true k draws = some true ∧ ¬ Nat.Prime 9080191 := by
  constructor
  · have hA := build_witnesses_fixed 9080191 k draws (by norm_num) (by norm_num)
    have h0 : ¬ ((9080191 : Nat) = 0 ∨ (9080191 : Nat) = 1) := by omega
    have h1 : ¬ ((9080191 : Nat) = 2 ∨ (9080191 : Nat) = 3) := by omega
    have h2 : ¬ ((9080191 : Nat) % 2 = 0) := by omega
    unfold is_prime
    rw [if_neg h0, if_neg h1, if_neg h2, hA]
    rfl
  · have h : (9080191 : Nat) = 2131 * 4261 := by norm_num
    rw [h]
    exact Nat.not_prime_mul (by norm_num) (by norm_num)

/-- C2 (fails on the code): for `base = 2 ^ 32` the first squaring
`base * base` is `2 ^ 64`, which wraps to `0`, so
`modular_pow(2 ^ 32, 2, 3)` returns `0` while `(2 ^ 32) ^ 2 mod 3 = 1`. -/
theorem modular_pow_wide_base_wraps :
    modular_pow (2 ^ 32) 2 3 = some 0 ∧ (2 ^ 32) ^ 2 % 3 = 1 ∧
    modular_pow_run (2 ^ 32) 2 3 = some (0, true) := by
  refine ⟨by decide, by norm_num, by decide⟩

/-- C9 (fails on the code): with exponent `0` the loop body never runs and
the initial `result = 1` is returned unreduced, so
`modular_pow(base, 0, 1)` is `1`, outside `[0, modulus - 1] = {0}`. -/
theorem modular_pow_zero_exponent_modulus_one (base : Nat) :
    modular_pow base 0 1 = some 1 ∧ ¬ (1 ≤ 1 - 1) ∧ base ^ 0 % 1 = 0 := by
  refine ⟨rfl, by decide, by simp⟩

/-! ## Contracts of `modular_pow` -/

/-- C3: for a base below `2 ^ 32`, a 32-bit exponent `e` and a 32-bit modulus
above `1`, the run of `modular_pow` ends with the overflow flag down (neither
`result * base` nor `base * base` ever reached `2 ^ 64`) and returns the
naive product of `e` copies of `base` reduced modulo `modulus`; and
`modular_pow(5, 3, 13) = 8`. -/
theorem modular_pow_no_wrap_matches_naive (base e modulus : Nat)
    (hb : base < 2 ^ 32) (he : e < 2 ^ 32) (hm1 : 1 < modulus)
    (hm : modulus < 2 ^ 32) :
    modular_pow_run base e modulus = some (naive_pow base e % modulus, false) ∧
    modular_pow base e modulus = some (naive_pow base e % modulus) ∧
    modular_pow 5 3 13 = some 8 := by
  refine ⟨?_, ?_, by decide⟩
  · rw [naive_pow_eq]
    exact modular_pow_run_spec base e modulus hb he hm1 hm
  · rw [naive_pow_eq]
    exact modular_pow_spec base e modulus hb he (by omega) hm (Or.inr hm1)

theorem modular_pow_no_wrap_matches_naive_witness :
    modular_pow_run 5 3 13 = some (naive_pow 5 3 % 13, false) ∧
    modular_pow 5 3 13 = some (naive_pow 5 3 % 13) ∧
    modular_pow 5 3 13 = some 8 :=
  modular_pow_no_wrap_matches_naive 5 3 13 (by norm_num) (by norm_num)
    (by norm_num) (by norm_num)

/-- C8: for every base (in particular every 64-bit one) and every modulus
above `1`, `modular_pow(base, 0, modulus)` is `1`, which is `1 mod modulus`. -/
theorem modular_pow_exponent_zero (base modulus : Nat) (hm1 : 1 < modulus) :
    modular_pow base 0 modulus = some 1 ∧ 1 % modulus = 1 :=
  ⟨rfl, Nat.mod_eq_of_lt hm1⟩

theorem modular_pow_exponent_zero_witness :
    modular_pow (2 ^ 40) 0 13 = some 1 ∧ 1 % 13 = 1 :=
  modular_pow_exponent_zero (2 ^ 40) 13 (by norm_num)

/-! ## Contracts of `is_prime` -/

/-- C4: `is_prime` never rejects a prime.  For every 32-bit `n`, every flag,
every `k` and all draws in `[2, n - 1]` (draws are only made for `n ≥ 5`):
if `n` is prime the answer is `true`, and if the answer is `false` then `n`
is not prime. -/
theorem is_prime_never_rejects_prime (n : Nat) (deterministic : Bool) (k : Nat)
    (draws : Nat → Nat) (hn : n < 2 ^ 32)
    (hdraws : 5 ≤ n → ∀ i, i < k → 2 ≤ draws i ∧ draws i ≤ n - 1) :
    (n.Prime → is_prime n deterministic k draws = some true) ∧
    (is_prime n deterministic k draws = some false → ¬ n.Prime) := by
  refine ⟨is_prime_of_prime n deterministic k draws hn hdraws, ?_⟩
  intro hfalse hp
  rw [is_prime_of_prime n deterministic k draws hn hdraws hp] at hfalse
  exact absurd hfalse (by decide)

theorem is_prime_never_rejects_prime_witness :
    is_prime 13 false 3 sample_draws = some true :=
  (is_prime_never_rejects_prime 13 false 3 sample_draws (by norm_num)
    (by
      intro _ i hi
      simp only [sample_draws]
      omega)).1 (by norm_num)

/-- C10: `is_prime` is total on 32-bit inputs: for every flag, `k` and draws
it returns a boolean (no zero divisor, no borrowing subtraction, no empty
random range, no loop out of budget).  Past the early returns `n ≥ 5`, so
`n - 2` and `n - 1` do not borrow, the range `[2, n - 1]` is not empty, a
witness set is built, the halving loop stops, and every witness test, run
with modulus `n`, returns. -/
theorem is_prime_total (n : Nat) (deterministic : Bool) (k : Nat)
    (draws : Nat → Nat) (hn : n < 2 ^ 32) :
    (∃ b, is_prime n deterministic k draws = some b) ∧
    (¬ (n = 0 ∨ n = 1) → ¬ (n = 2 ∨ n = 3) → ¬ n % 2 = 0 →
      5 ≤ n ∧ sub32 n 2 = some (n - 2) ∧ sub32 n 1 = some (n - 1) ∧
      2 ≤ n - 1 ∧ (∃ A, build_witnesses n deterministic k draws = some A) ∧
      ∃ d s, decompose_loop 32 (n - 1) 0 = some (d, s) ∧
        ∀ a, ∃ b, witness_passes a d s n = some b) := by
  have key : ¬ (n = 0 ∨ n = 1) → ¬ (n = 2 ∨ n = 3) → ¬ n % 2 = 0 →
      5 ≤ n ∧ (∃ A, build_witnesses n deterministic k draws = some A) ∧
      ∃ d s, decompose_loop 32 (n - 1) 0 = some (d, s) ∧ d < 2 ^ 32 := by
    intro h01 h23 hev
    have h5 : 5 ≤ n := by omega
    refine ⟨h5, ?_, ?_⟩
    · rcases build_witnesses_cases n deterministic k draws (by omega) with h | h | h
      exacts [⟨_, h⟩, ⟨_, h⟩, ⟨_, h⟩]
    · obtain ⟨d, s, hdec, _, hds, _, _⟩ := decompose_spec n hn (by omega) (by omega)
      refine ⟨d, s, hdec, ?_⟩
      have : d ≤ d * 2 ^ s := Nat.le_mul_of_pos_right d (by positivity)
      omega
  constructor
  · unfold is_prime
    split_ifs with h01 h23 hev
    · exact ⟨false, rfl⟩
    · exact ⟨true, rfl⟩
    · exact ⟨false, rfl⟩
    · obtain ⟨h5, ⟨A, hA⟩, d, s, hdec, hd⟩ := key h01 h23 hev
      rw [hA]
      simp only [sub32_of_le (show 1 ≤ n by omega), hdec]
      exact witness_loop_total d s n (by omega) hd A
  · intro h01 h23 hev
    obtain ⟨h5, hA, d, s, hdec, hd⟩ := key h01 h23 hev
    refine ⟨h5, sub32_of_le (by omega), sub32_of_le (by omega), by omega, hA,
      d, s, hdec, ?_⟩
    intro a
    exact witness_passes_total a d s n (by omega) hd

theorem is_prime_total_witness :
    ∃ b, is_prime 561 false 4 sample_draws = some b :=
  (is_prime_total 561 false 4 sample_draws (by norm_num)).1

/-! ## The witness set and the mode actually used -/

/-- Past the early returns `is_prime` is the witness loop run on the set
built by `build_witnesses`, with the `d` and `s` of the halving loop. -/
lemma is_prime_odd (n : Nat) (deterministic : Bool) (k : Nat) (draws : Nat → Nat)
    (h5 : 5 ≤ n) (hodd : n % 2 = 1) :
    is_prime n deterministic k draws =
      (build_witnesses n deterministic k draws).bind (fun A =>
        (decompose_loop 32 (n - 1) 0).bind (fun ds => witness_loop ds.1 ds.2 n A)) := by
  have h01 : ¬ (n = 0 ∨ n = 1) := by omega
  have h23 : ¬ (n = 2 ∨ n = 3) := by omega
  have hev : ¬ n % 2 = 0 := by omega
  unfold is_prime
  rw [if_neg h01, if_neg h23, if_neg hev]
  cases build_witnesses n deterministic k draws with
  | none => rfl
  | some A =>
    simp only [sub32_of_le (show 1 ≤ n by omega), Option.some_bind]
    cases decompose_loop 32 (n - 1) 0 with
    | none => rfl
    | some ds => rfl

/-- Two calls that build the same witness set return the same answer. -/
lemma is_prime_congr (n : Nat) (det1 det2 : Bool) (k1 k2 : Nat)
    (draws1 draws2 : Nat → Nat)
    (h : build_witnesses n det1 k1 draws1 = build_witnesses n det2 k2 draws2) :
    is_prime n det1 k1 draws1 = is_prime n det2 k2 draws2 := by
  unfold is_prime
  rw [h]

lemma build_witnesses_draws_congr (n : Nat) (deterministic : Bool) (k : Nat)
    (draws1 draws2 : Nat → Nat) (h : ∀ i, i < k → draws1 i = draws2 i) :
    build_witnesses n deterministic k draws1 = build_witnesses n deterministic k draws2 := by
  have hmap : (List.range k).map draws1 = (List.range k).map draws2 :=
    List.map_congr_left (fun i hi => h i (List.mem_range.mp hi))
  unfold build_witnesses draw_witnesses
  rw [hmap]

/-- Below the last threshold the answer of deterministic mode depends on
neither `k` nor the draws. -/
lemma is_prime_true_indep (n k1 k2 : Nat) (draws1 draws2 : Nat → Nat)
    (h : n < 25326001) :
    is_prime n true k1 draws1 = is_prime n true k2 draws2 := by
  by_cases h2 : 2 ≤ n
  · apply is_prime_congr
    rw [build_witnesses_fixed n k1 draws1 h2 h, build_witnesses_fixed n k2 draws2 h2 h]
  · have h01 : n = 0 ∨ n = 1 := by omega
    unfold is_prime
    rw [if_pos h01, if_pos h01]

lemma select_fixed_large {n : Nat} (h : 25326001 ≤ n) : select_fixed n = ([], false) := by
  unfold select_fixed
  rw [if_neg (by omega), if_neg (by omega), if_neg (by omega), if_neg (by omega)]

/-- From the last threshold on, the witness set is the `k` draws, whatever
the flag. -/
lemma build_witnesses_large (n : Nat) (deterministic : Bool) (k : Nat)
    (draws : Nat → Nat) (h : 25326001 ≤ n) :
    build_witnesses n deterministic k draws = some ((List.range k).map draws) := by
  unfold build_witnesses
  rw [sub32_of_le (show 2 ≤ n by omega)]
  simp only [select_fixed_large h, draw_witnesses_eq n k draws _ (show 3 ≤ n by omega)]
  split_ifs <;> simp_all

/-- When `k > n - 2` the flag is forced to `true`. -/
lemma build_witnesses_forced (n k : Nat) (draws : Nat → Nat) (h2 : 2 ≤ n)
    (hk : k > n - 2) :
    build_witnesses n false k draws = build_witnesses n true k draws := by
  unfold build_witnesses
  rw [sub32_of_le h2]
  simp only [if_pos hk, if_true]

/-- C12: for odd `n ≥ 5` and `k > n - 2` the caller's flag is overridden:
`is_prime(n, false, k)` builds the same witness set and returns the same
result as `is_prime(n, true, k)` on the same draws; for `n < 25326001` that
set is the fixed one, and the result does not depend on the draws. -/
theorem is_prime_forced_deterministic (n k : Nat) (draws : Nat → Nat)
    (h5 : 5 ≤ n) (hodd : n % 2 = 1) (hk : k > n - 2) :
    is_prime n false k draws = is_prime n true k draws ∧
    build_witnesses n false k draws = build_witnesses n true k draws ∧
    (n < 25326001 →
      build_witnesses n false k draws = some (select_fixed n).1 ∧
      is_prime n false k draws =
        (decompose_loop 32 (n - 1) 0).bind
          (fun ds => witness_loop ds.1 ds.2 n (select_fixed n).1) ∧
      ∀ draws2, is_prime n false k draws2 = is_prime n false k draws) := by
  have hb : ∀ dr, build_witnesses n false k dr = build_witnesses n true k dr :=
    fun dr => build_witnesses_forced n k dr (by omega) hk
  refine ⟨is_prime_congr n false true k k draws draws (hb draws), hb draws, ?_⟩
  intro hlt
  have hfix : ∀ dr, build_witnesses n false k dr = some (select_fixed n).1 :=
    fun dr => by rw [hb dr, build_witnesses_fixed n k dr (by omega) hlt]
  refine ⟨hfix draws, ?_, ?_⟩
  · rw [is_prime_odd n false k draws h5 hodd, hfix draws]
    rfl
  · intro draws2
    exact is_prime_congr n false false k k draws2 draws
      (by rw [hfix draws2, hfix draws])

theorem is_prime_forced_deterministic_witness :
    is_prime 7 false 6 sample_draws = is_prime 7 true 6 sample_draws :=
  (is_prime_forced_deterministic 7 6 sample_draws (by norm_num) (by norm_num)
    (by norm_num)).1

/-- C13: for odd `n ≥ 25326001` (in particular below `2 ^ 32`) deterministic mode is
abandoned: with the flag `true` the witness set is exactly the `k` draws, as
it is with the flag `false`, and the two calls return the same result on the
same draws. -/
theorem is_prime_abandons_deterministic (n k : Nat) (draws : Nat → Nat)
    (hlo : 25326001 ≤ n) (hodd : n % 2 = 1) :
    build_witnesses n true k draws = some ((List.range k).map draws) ∧
    build_witnesses n false k draws = some ((List.range k).map draws) ∧
    is_prime n true k draws = is_prime n false k draws ∧
    is_prime n true k draws =
      (decompose_loop 32 (n - 1) 0).bind
        (fun ds => witness_loop ds.1 ds.2 n ((List.range k).map draws)) := by
  have ht := build_witnesses_large n true k draws hlo
  have hf := build_witnesses_large n false k draws hlo
  refine ⟨ht, hf, is_prime_congr n true false k k draws draws (by rw [ht, hf]), ?_⟩
  rw [is_prime_odd n true k draws (by omega) hodd, ht]
  rfl

theorem is_prime_abandons_deterministic_witness :
    build_witnesses 25326001 true 3 sample_draws = some ((List.range 3).map sample_draws) :=
  (is_prime_abandons_deterministic 25326001 3 sample_draws (by norm_num)
    (by norm_num)).1

/-- C14: for odd `n` with `5 ≤ n < 2 ^ 32` the halving loop stops with `d`
odd, `1 ≤ s < 32` and `d * 2 ^ s = n - 1` as natural numbers (so neither
`n - 1` nor `s++` wraps), and the rest of `is_prime` is the witness loop run
with these same `d` and `s`. -/
theorem decompose_invariant (n : Nat) (h5 : 5 ≤ n) (hn : n < 2 ^ 32)
    (hodd : n % 2 = 1) :
    ∃ d s, sub32 n 1 = some (n - 1) ∧ decompose_loop 32 (n - 1) 0 = some (d, s) ∧
      d % 2 = 1 ∧ 1 ≤ s ∧ s < 32 ∧ d * 2 ^ s = n - 1 ∧ d * 2 ^ s < 2 ^ 32 ∧
      ∀ (deterministic : Bool) (k : Nat) (draws : Nat → Nat),
        is_prime n deterministic k draws =
          (build_witnesses n deterministic k draws).bind (witness_loop d s n) := by
  obtain ⟨d, s, hdec, hd, hds, hs, hs32⟩ := decompose_spec n hn (by omega) hodd
  refine ⟨d, s, sub32_of_le (by omega), hdec, hd, hs, hs32, hds, by omega, ?_⟩
  intro deterministic k draws
  rw [is_prime_odd n deterministic k draws h5 hodd, hdec]
  rfl

theorem decompose_invariant_witness :
    ∃ d s, sub32 561 1 = some (561 - 1) ∧ decompose_loop 32 (561 - 1) 0 = some (d, s) ∧
      d % 2 = 1 ∧ 1 ≤ s ∧ s < 32 ∧ d * 2 ^ s = 561 - 1 ∧ d * 2 ^ s < 2 ^ 32 ∧
      ∀ (deterministic : Bool) (k : Nat) (draws : Nat → Nat),
        is_prime 561 deterministic k draws =
          (build_witnesses 561 deterministic k draws).bind (witness_loop d s 561) :=
  decompose_invariant 561 (by norm_num) (by norm_num) (by norm_num)

/-- C19: with `k = 0` the witness set is empty and the test accepts: for
every odd 32-bit `n ≥ 5`, `is_prime(n, false, 0)` is `true`, and from
`25326001` on `is_prime(n, true, 0)` is `true` as well; so the composites `9`
and `25326003 = 3 * 8442001` are accepted. -/
theorem is_prime_zero_witnesses (n : Nat) (draws : Nat → Nat) (h5 : 5 ≤ n)
    (hn : n < 2 ^ 32) (hodd : n % 2 = 1) :
    build_witnesses n false 0 draws = some [] ∧
    is_prime n false 0 draws = some true ∧
    (25326001 ≤ n → is_prime n true 0 draws = some true) ∧
    is_prime 9 false 0 draws = some true ∧ ¬ Nat.Prime 9 ∧
    is_prime 25326003 true 0 draws = some true ∧ ¬ Nat.Prime 25326003 := by
  obtain ⟨d, s, hdec, _⟩ := decompose_spec n hn (by omega) hodd
  have hA : build_witnesses n false 0 draws = some [] := by
    have hk : ¬ 0 > n - 2 := by omega
    unfold build_witnesses
    rw [sub32_of_le (show 2 ≤ n by omega)]
    simp [draw_witnesses_eq n 0 draws _ (show 3 ≤ n by omega)]
  have hfalse : is_prime n false 0 draws = some true := by
    rw [is_prime_odd n false 0 draws h5 hodd, hA, hdec]
    rfl
  refine ⟨hA, hfalse, ?_, rfl, ?_, rfl, ?_⟩
  · intro hlo
    rw [is_prime_odd n true 0 draws h5 hodd, build_witnesses_large n true 0 draws hlo,
      hdec]
    rfl
  · have h : (9 : Nat) = 3 * 3 := by norm_num
    rw [h]
    exact Nat.not_prime_mul (by norm_num) (by norm_num)
  · have h : (25326003 : Nat) = 3 * 8442001 := by norm_num
    rw [h]
    exact Nat.not_prime_mul (by norm_num) (by norm_num)

theorem is_prime_zero_witnesses_witness :
    is_prime 15 false 0 sample_draws = some true :=
  (is_prime_zero_witnesses 15 sample_draws (by norm_num) (by norm_num)
    (by norm_num)).2.1

/-! ## The squaring loop stays within 64 bits -/

lemma decompose_props (n d s : Nat) (hn : n < 2 ^ 32) (h3 : 3 ≤ n) (hodd : n % 2 = 1)
    (hdec : decompose_loop 32 (n - 1) 0 = some (d, s)) :
    d % 2 = 1 ∧ d * 2 ^ s = n - 1 ∧ 1 ≤ s ∧ s < 32 ∧ d < 2 ^ 32 := by
  obtain ⟨d1, s1, h1, h2, h3, h4, h5⟩ := decompose_spec n hn h3 hodd
  rw [hdec] at h1
  injection h1 with h1
  injection h1 with hd hs
  subst hd
  subst hs
  have : d ≤ d * 2 ^ s := Nat.le_mul_of_pos_right d (by positivity)
  exact ⟨h2, h3, h4, h5, by omega⟩

/-- For `x ≤ n < 2 ^ 32` one pass of the loop body leaves a value that is
at most `n` and congruent to `x * x` modulo `n`. -/
lemma square_step_le (x n : Nat) (hn0 : 0 < n) (hn : n < 2 ^ 32) (hx : x ≤ n) :
    ∃ y, square_step x n = some y ∧ y ≤ n ∧ y % n = x * x % n := by
  refine ⟨_, square_step_of_le x n hn0 hn hx, ?_, ?_⟩
  · split_ifs with h
    · exact le_of_lt (Nat.mod_lt _ hn0)
    · omega
  · split_ifs with h
    · exact Nat.mod_mod _ _
    · rfl

lemma square_loop_inputs_le (n : Nat) (hn0 : 0 < n) (hn : n < 2 ^ 32) :
    ∀ (rem x : Nat), x ≤ n → ∀ y ∈ square_loop_inputs rem x n, y ≤ n := by
  intro rem
  induction rem with
  | zero =>
    intro x _ y hy
    simp [square_loop_inputs] at hy
  | succ rem ih =>
    intro x hx y hy
    obtain ⟨x1, h1, h2, _⟩ := square_step_le x n hn0 hn hx
    rw [square_loop_inputs, h1] at hy
    simp only [sub32_of_le (Nat.succ_le_of_lt hn0)] at hy
    rcases List.mem_cons.mp hy with rfl | hy
    · exact hx
    · split_ifs at hy with ha hb
      · simp at hy
      · simp at hy
      · exact ih x1 h2 y hy

/-- C15: for odd `n` with `5 ≤ n < 2 ^ 32`, the `d` and `s` of the halving
loop and a witness `a ≤ n - 1` (in particular `a` in `[2, n - 1]`), every value of `x` on which `x *= x`
is executed is at most `n`, hence below `2 ^ 32`, and its square is below
`2 ^ 64`: the 64-bit product does not wrap. -/
theorem squaring_never_wraps (n a d s : Nat) (h5 : 5 ≤ n) (hn : n < 2 ^ 32)
    (hodd : n % 2 = 1) (han : a ≤ n - 1)
    (hdec : decompose_loop 32 (n - 1) 0 = some (d, s)) :
    ∀ x ∈ witness_squarings a d s n,
      x ≤ n ∧ x < 2 ^ 32 ∧ x * x < 2 ^ 64 ∧ x * x % U64 = x * x := by
  obtain ⟨_, _, _, _, hd⟩ := decompose_props n d s hn (by omega) hodd hdec
  have hle : ∀ x ∈ witness_squarings a d s n, x ≤ n := by
    intro x hx
    unfold witness_squarings at hx
    rw [modular_pow_spec a d n (by omega) hd (by omega) hn (Or.inr (by omega))] at hx
    simp only [sub32_of_le (show 1 ≤ n by omega)] at hx
    split_ifs at hx with hc
    · simp at hx
    · exact square_loop_inputs_le n (by omega) hn _ _
        (le_of_lt (Nat.mod_lt _ (by omega))) x hx
  intro x hx
  have h1 := hle x hx
  have h2 : x * x < U64 := mul_lt_U64 (by omega) (by omega)
  exact ⟨h1, by omega, h2, Nat.mod_eq_of_lt h2⟩

theorem squaring_never_wraps_witness :
    263 ≤ 561 ∧ 263 < 2 ^ 32 ∧ 263 * 263 < 2 ^ 64 ∧ 263 * 263 % U64 = 263 * 263 :=
  squaring_never_wraps 561 2 35 4 (by norm_num) (by norm_num) (by norm_num)
    (by norm_num) (by decide) 263 (by decide)

/-! ## The range of the witnesses -/

/-- C18 (as stated, fails): for `n = 5` the draw `4 = n - 1` is in the range
`[2, n - 1]` of the distribution, it enters the witness set, and it lies
outside `[2, n - 2]`. -/
theorem build_witnesses_draw_outside :
    build_witnesses 5 false 1 (const_draws 4) = some [4] ∧
    (2 ≤ const_draws 4 0 ∧ const_draws 4 0 ≤ 5 - 1) ∧ ¬ (4 ≤ 5 - 2) := by
  decide

/-- C18 (amended): for `n ≥ 5`, every flag and every `k`, with draws in the
range `[2, n - 1]` of the distribution: every fixed witness lies in
`[2, n - 2]`, and every witness of the set built lies in `[2, n - 1]`, and in
`[2, n - 2]` unless it is one of the `k` draws. -/
theorem witnesses_in_range (n : Nat) (deterministic : Bool) (k : Nat)
    (draws : Nat → Nat) (h5 : 5 ≤ n)
    (hdraws : ∀ i, i < k → 2 ≤ draws i ∧ draws i ≤ n - 1) :
    (∀ a ∈ (select_fixed n).1, 2 ≤ a ∧ a ≤ n - 2) ∧
    ∃ A, build_witnesses n deterministic k draws = some A ∧
      ∀ a ∈ A, 2 ≤ a ∧ a ≤ n - 1 ∧ (a ≤ n - 2 ∨ ∃ i, i < k ∧ a = draws i) := by
  have hfix : ∀ a ∈ (select_fixed n).1, 2 ≤ a ∧ a ≤ n - 2 :=
    fun a ha => select_fixed_range n a h5 ha
  have hfix1 : ∀ a ∈ (select_fixed n).1,
      2 ≤ a ∧ a ≤ n - 1 ∧ (a ≤ n - 2 ∨ ∃ i, i < k ∧ a = draws i) := by
    intro a ha
    have := hfix a ha
    exact ⟨this.1, by omega, Or.inl this.2⟩
  have hdr : ∀ a ∈ (List.range k).map draws,
      2 ≤ a ∧ a ≤ n - 1 ∧ (a ≤ n - 2 ∨ ∃ i, i < k ∧ a = draws i) := by
    intro a ha
    obtain ⟨i, hi, rfl⟩ := List.mem_map.mp ha
    have hik := List.mem_range.mp hi
    exact ⟨(hdraws i hik).1, (hdraws i hik).2, Or.inr ⟨i, hik, rfl⟩⟩
  refine ⟨hfix, ?_⟩
  rcases build_witnesses_cases n deterministic k draws (by omega) with h | h | h
  · exact ⟨_, h, hfix1⟩
  · refine ⟨_, h, ?_⟩
    intro a ha
    rcases List.mem_append.mp ha with h1 | h1
    · exact hfix1 a h1
    · exact hdr a h1
  · exact ⟨_, h, hdr⟩

theorem witnesses_in_range_witness :
    ∃ A, build_witnesses 13 false 3 sample_draws = some A ∧
      ∀ a ∈ A, 2 ≤ a ∧ a ≤ 13 - 1 ∧
        (a ≤ 13 - 2 ∨ ∃ i, i < 3 ∧ a = sample_draws i) :=
  (witnesses_in_range 13 false 3 sample_draws (by norm_num)
    (by
      intro i hi
      simp only [sample_draws]
      omega)).2

/-! ## Strong probable primes -/

lemma pow_two_pow_succ_mod (y n i : Nat) :
    y ^ (2 ^ (i + 1)) % n = (y * y % n) ^ (2 ^ i) % n := by
  have h : y ^ (2 ^ (i + 1)) = (y * y) ^ (2 ^ i) := by
    rw [pow_succ, mul_comm, pow_mul, pow_two]
  rw [h, Nat.pow_mod]

/-- The always-reducing loop succeeds exactly when one of the next `rem`
repeated squares of `y` is `n - 1` modulo `n`. -/
lemma square_loop_reduced_iff (n : Nat) (h3 : 3 ≤ n) :
    ∀ (rem y : Nat), square_loop_reduced rem y n = true ↔
      ∃ i, 1 ≤ i ∧ i ≤ rem ∧ y ^ (2 ^ i) % n = n - 1 := by
  intro rem
  induction rem with
  | zero =>
    intro y
    constructor
    · intro h
      simp [square_loop_reduced] at h
    · rintro ⟨i, h1, h2, _⟩
      omega
  | succ rem ih =>
    intro y
    rw [square_loop_reduced]
    by_cases h1 : y * y % n = 1
    · rw [if_pos h1]
      constructor
      · intro h
        simp at h
      · rintro ⟨i, hi1, _, hi⟩
        obtain ⟨j, rfl⟩ : ∃ j, i = j + 1 := ⟨i - 1, by omega⟩
        rw [pow_two_pow_succ_mod, h1, one_pow, Nat.mod_eq_of_lt (by omega)] at hi
        omega
    · rw [if_neg h1]
      by_cases h2 : y * y % n = n - 1
      · rw [if_pos h2]
        constructor
        · intro _
          refine ⟨1, le_refl 1, by omega, ?_⟩
          rw [show (1 : Nat) = 0 + 1 from rfl, pow_two_pow_succ_mod, pow_zero, pow_one,
            Nat.mod_mod, h2]
        · intro _
          rfl
      · rw [if_neg h2, ih (y * y % n)]
        constructor
        · rintro ⟨i, hi1, hi2, hi⟩
          exact ⟨i + 1, by omega, by omega, by rw [pow_two_pow_succ_mod]; exact hi⟩
        · rintro ⟨i, hi1, hi2, hi⟩
          obtain ⟨j, rfl⟩ : ∃ j, i = j + 1 := ⟨i - 1, by omega⟩
          rw [pow_two_pow_succ_mod] at hi
          rcases Nat.eq_zero_or_pos j with h0 | hpos
          · subst h0
            rw [pow_zero, pow_one, Nat.mod_mod] at hi
            exact absurd hi h2
          · exact ⟨j, hpos, by omega, hi⟩

/-- A value `x ≤ n` is `c` exactly when its residue is `c`, for `c < n`; this
is what makes the unreduced `x = n` harmless. -/
lemma eq_iff_mod_eq {x n c : Nat} (hx : x ≤ n) (hc : c < n) (hc0 : 0 < c) :
    x = c ↔ x % n = c := by
  constructor
  · intro h
    rw [h]
    exact Nat.mod_eq_of_lt hc
  · intro h
    rcases Nat.lt_or_ge x n with hlt | hge
    · rwa [Nat.mod_eq_of_lt hlt] at h
    · have hxn : x = n := le_antisymm hx hge
      rw [hxn, Nat.mod_self] at h
      omega

/-- The loop of the code, with its conditional reduction, returns the
verdict of the always-reducing loop. -/
lemma square_loop_eq_reduced (n : Nat) (h3 : 3 ≤ n) (hn : n < 2 ^ 32) :
    ∀ (rem x : Nat), x ≤ n →
      square_loop rem x n = some (square_loop_reduced rem (x % n) n) := by
  intro rem
  induction rem with
  | zero =>
    intro x _
    rfl
  | succ rem ih =>
    intro x hx
    obtain ⟨x1, hstep, hle, hmod⟩ := square_step_le x n (by omega) hn hx
    have hz : x % n * (x % n) % n = x1 % n := by
      rw [hmod, ← Nat.mul_mod]
    have e1 : x1 = 1 ↔ x1 % n = 1 := eq_iff_mod_eq hle (by omega) (by omega)
    have e2 : x1 = n - 1 ↔ x1 % n = n - 1 := eq_iff_mod_eq hle (by omega) (by omega)
    rw [square_loop, hstep, square_loop_reduced, hz]
    simp only [sub32_of_le (show 1 ≤ n by omega)]
    by_cases c1 : x1 = 1
    · rw [if_pos c1, if_pos (e1.mp c1)]
    · rw [if_neg c1, if_neg (mt e1.mpr c1)]
      by_cases c2 : x1 = n - 1
      · rw [if_pos c2, if_pos (e2.mp c2)]
      · rw [if_neg c2, if_neg (mt e2.mpr c2), ih x1 hle]

lemma witness_passes_eq_reduced (n a d s : Nat) (h3 : 3 ≤ n) (hn : n < 2 ^ 32)
    (ha : a < 2 ^ 32) (hd : d < 2 ^ 32) :
    witness_passes a d s n = some (witness_passes_reduced a d s n) := by
  unfold witness_passes witness_passes_reduced
  rw [modular_pow_spec a d n ha hd (by omega) hn (Or.inr (by omega))]
  simp only [sub32_of_le (show 1 ≤ n by omega)]
  by_cases c : a ^ d % n = 1 ∨ a ^ d % n = n - 1
  · rw [if_pos c, if_pos c]
  · rw [if_neg c, if_neg c,
      square_loop_eq_reduced n h3 hn _ _ (le_of_lt (Nat.mod_lt _ (by omega))),
      Nat.mod_mod]

lemma witness_passes_reduced_iff (n a d s : Nat) (h3 : 3 ≤ n) (hs : 1 ≤ s) :
    witness_passes_reduced a d s n = true ↔ strong_probable_prime n a d s := by
  have hpow : ∀ i, (a ^ d % n) ^ (2 ^ i) % n = a ^ (d * 2 ^ i) % n := by
    intro i
    rw [← Nat.pow_mod, ← pow_mul]
  unfold witness_passes_reduced strong_probable_prime
  by_cases c1 : a ^ d % n = 1
  · simp [c1]
  · by_cases c2 : a ^ d % n = n - 1
    · have hex : ∃ r, r < s ∧ a ^ (d * 2 ^ r) % n = n - 1 :=
        ⟨0, by omega, by simpa using c2⟩
      simp [c2, hex]
    · rw [if_neg (by tauto), square_loop_reduced_iff n h3]
      constructor
      · rintro ⟨i, hi1, hi2, hi⟩
        right
        exact ⟨i, by omega, by rw [← hpow]; exact hi⟩
      · rintro (h | ⟨r, hr, h⟩)
        · exact absurd h c1
        · rcases Nat.eq_zero_or_pos r with h0 | hpos
          · subst h0
            simp at h
            exact absurd h c2
          · exact ⟨r, hpos, by omega, by rw [hpow]; exact h⟩

/-- C16: for odd `n` with `5 ≤ n < 2 ^ 32`, `n - 1 = d * 2 ^ s` with `d` odd,
and a witness `a ≤ n - 1` (in particular `a` in `[2, n - 1]`): the test of
the code passes exactly when
`n` is a strong probable prime to base `a`, it fails exactly when it is not,
and its verdict is that of the variant that always computes `x = x² mod n`. -/
theorem witness_passes_iff_strong_probable_prime (n a d s : Nat) (h5 : 5 ≤ n)
    (hn : n < 2 ^ 32) (hodd : n % 2 = 1) (han : a ≤ n - 1)
    (hd : d % 2 = 1) (hds : d * 2 ^ s = n - 1) :
    (witness_passes a d s n = some true ↔ strong_probable_prime n a d s) ∧
    (witness_passes a d s n = some false ↔ ¬ strong_probable_prime n a d s) ∧
    witness_passes a d s n = some (witness_passes_reduced a d s n) := by
  have hs : 1 ≤ s := by
    rcases Nat.eq_zero_or_pos s with h0 | hpos
    · subst h0
      simp at hds
      omega
    · exact hpos
  have hd32 : d < 2 ^ 32 := by
    have : d ≤ d * 2 ^ s := Nat.le_mul_of_pos_right d (by positivity)
    omega
  have heq := witness_passes_eq_reduced n a d s (by omega) hn (by omega) hd32
  have hiff := witness_passes_reduced_iff n a d s (by omega) hs
  refine ⟨?_, ?_, heq⟩
  · rw [heq, ← hiff]
    simp
  · rw [heq, ← hiff]
    simp

theorem witness_passes_iff_strong_probable_prime_witness :
    witness_passes 2 35 4 561 = some false ∧ ¬ strong_probable_prime 561 2 35 4 :=
  have h := witness_passes_iff_strong_probable_prime 561 2 35 4 (by norm_num)
    (by norm_num) (by norm_num) (by norm_num) (by norm_num) (by norm_num)
  ⟨by decide, h.2.1.mp (by decide)⟩

/-! ## The first threshold -/

/-- Trial division by the candidates below `b` decides primality of every
`n < b * b`. -/
lemma trial_division_iff (b n : Nat) (h : n < b * b) :
    trial_division b n = true ↔ n.Prime := by
  unfold trial_division
  simp only [Bool.and_eq_true, decide_eq_true_eq, List.all_eq_true, List.mem_range,
    Bool.or_eq_true]
  constructor
  · rintro ⟨h2, hall⟩
    rw [Nat.prime_def_le_sqrt]
    refine ⟨h2, ?_⟩
    intro m hm2 hms hdvd
    have hmm : m * m ≤ n := Nat.le_sqrt.mp hms
    have hmb : m < b := by
      by_contra hge
      have : b * b ≤ m * m := Nat.mul_le_mul (by omega) (by omega)
      omega
    have hmn : m < n := by
      have : m * 2 ≤ m * m := Nat.mul_le_mul_left m hm2
      omega
    rcases hall m hmb with (h1 | h1) | h1
    · omega
    · omega
    · exact h1 (Nat.mod_eq_zero_of_dvd hdvd)
  · intro hp
    refine ⟨hp.two_le, ?_⟩
    intro m _
    by_cases h1 : m < 2
    · exact Or.inl (Or.inl h1)
    · by_cases h2 : n ≤ m
      · exact Or.inl (Or.inr h2)
      · right
        intro h0
        exact (Nat.prime_def_lt'.mp hp).2 m (by omega) (by omega)
          (Nat.dvd_of_mod_eq_zero h0)

/-- Exhaustive run of the model below the first threshold, against trial
division by the candidates below `46` (`46 * 46 = 2116`). -/
lemma is_prime_below_2047_run :
    ∀ n < 2047, is_prime n true 0 sample_draws = some (trial_division 46 n) := by
  decide!

/-- C17: for every `n < 2047`, every `k` and all draws, `is_prime(n, true, k)`
is `true` exactly when `n` is prime; for odd `n ≥ 5` the witness set is the
single fixed witness `2` and the answer is the verdict of the loop on it. -/
theorem is_prime_below_2047 (n k : Nat) (draws : Nat → Nat) (h : n < 2047) :
    is_prime n true k draws = some (decide n.Prime) ∧
    (is_prime n true k draws = some true ↔ n.Prime) ∧
    (5 ≤ n → n % 2 = 1 →
      build_witnesses n true k draws = some [2] ∧
      is_prime n true k draws =
        (decompose_loop 32 (n - 1) 0).bind (fun ds => witness_loop ds.1 ds.2 n [2])) := by
  have htd : trial_division 46 n = decide n.Prime := by
    by_cases hp : n.Prime
    · rw [decide_eq_true hp]
      exact (trial_division_iff 46 n (by omega)).mpr hp
    · rw [decide_eq_false hp]
      exact Bool.eq_false_iff.mpr
        (fun ht => hp ((trial_division_iff 46 n (by omega)).mp ht))
  have hval : is_prime n true k draws = some (decide n.Prime) := by
    rw [is_prime_true_indep n k 0 draws sample_draws (by omega),
      is_prime_below_2047_run n h, htd]
  refine ⟨hval, ?_, ?_⟩
  · rw [hval]
    simp
  · intro h5 hodd
    have hA : build_witnesses n true k draws = some [2] := by
      rw [build_witnesses_fixed n k draws (by omega) (by omega)]
      simp [select_fixed, h]
    refine ⟨hA, ?_⟩
    rw [is_prime_odd n true k draws h5 hodd, hA]
    rfl

theorem is_prime_below_2047_witness :
    is_prime 2039 true 4 sample_draws = some (decide (Nat.Prime 2039)) :=
  (is_prime_below_2047 2039 4 sample_draws (by norm_num)).1

end MillerRabin
